import Mathlib

/-!
# Verification of the earpeace gain-staging and dynamics-limiting core

Shallow embedding of the Rust sources (`src/dsp.rs`, `src/audio_limiter.rs`,
`src/audio_normalizer.rs`, `src/discord.rs`) of the `earpeace` repository.

Floating-point values (`f32`/`f64`) are modelled as exact rationals `ℚ`.
Two transcendental quantities computed by the code are not representable in
`ℚ` and are therefore passed as parameters, constrained by hypotheses that
hold for every value the code can actually produce:

* `threshold_linear = db_to_linear(threshold_db) = 10 ^ (threshold_db / 20)`,
  which is strictly positive for every `threshold_db` (and `< 1` for the
  validated negative thresholds); theorems assume only `0 < t`;
* `release_coeff = exp (-1 / release_samples)`, which lies in `[0, 1)`
  for every `release_samples : usize` (Rust evaluates `exp (-1/0) = exp (-∞) = 0`
  when `release_samples = 0`); theorems assume `0 ≤ coeff` and `coeff ≤ 1`.

IEEE-754 NaN behaviour, which a `ℚ` model cannot express, is modelled
separately by the small float type `F` (a rational or NaN), faithful to the
IEEE rules the code relies on: every ordered comparison involving NaN is
false, and `partial_cmp` on NaN returns `None` (so `.unwrap()` panics).
-/

namespace EarPeace

/-- Rust `f64::min` / `f32::min` on non-NaN values (returns the smaller
operand).  Written as an explicit comparison so that concrete inputs
evaluate by kernel reduction; `fmin_eq_min` identifies it with `min`. -/
def fmin (a b : ℚ) : ℚ := if a ≤ b then a else b

/-- Rust `f64::abs` / `f32::abs` on non-NaN values.  Written as an explicit
comparison so that concrete inputs evaluate by kernel reduction;
`qabs_eq_abs` identifies it with `|·|`. -/
def qabs (q : ℚ) : ℚ := if q < 0 then -q else q

/-- Rust `max_by`'s selection of the larger operand (see `maxfF` for the
NaN-aware version); `fmax_eq_max` identifies it with `max`. -/
def fmax (a b : ℚ) : ℚ := if a ≤ b then b else a

/-! ## `src/dsp.rs` -/

/-- `max_peak` (src/dsp.rs): `samples.iter().map(|&s| s.abs() as f64)
.max_by(|a, b| a.partial_cmp(b).unwrap()).unwrap_or(0.0)`.
On NaN-free input `max_by` returns the maximum of the absolute values (or
`None`, turned into `0.0`, for the empty buffer); since all absolute values
are nonnegative this equals a `max`-fold started at `0`.  The panic that
`unwrap` causes on NaN input is modelled by `max_peakF` below. -/
def max_peak (samples : List ℚ) : ℚ :=
  (samples.map fun s => qabs s).foldl fmax 0

/-! ## `src/audio_normalizer.rs` -/

def MAX_TARGET_LOUDNESS : ℚ := -10

def MAX_PEAK_CEILING : ℚ := -1/10

structure AudioNormalizer where
  target_loudness : ℚ
  peak_ceiling : ℚ
deriving DecidableEq

/-- `AudioNormalizer::new` (src/audio_normalizer.rs).  The Rust error
messages interpolate the offending value with `format!`; the interpolated
part is elided here, keeping the static text that names the parameter. -/
def AudioNormalizer.new (target_loudness peak_ceiling : ℚ) :
    Except String AudioNormalizer :=
  if 0 ≤ target_loudness then
    .error "Target loudness must be negative"
  else if 0 ≤ peak_ceiling then
    .error "Peak ceiling must be negative"
  else if MAX_TARGET_LOUDNESS < target_loudness then
    .error "Target loudness exceeds maximum allowed value"
  else if MAX_PEAK_CEILING < peak_ceiling then
    .error "Peak ceiling exceeds maximum allowed value"
  else
    .ok ⟨target_loudness, peak_ceiling⟩

/-- The clamped gain computed inside `AudioNormalizer::apply_gain`
(src/audio_normalizer.rs): `final_gain = gain.min(peak_limit / current_peak)`
where `current_peak = max_peak(samples)` and
`peak_limit = db_to_linear(peak_ceiling)` is passed as the parameter
`peak_limit` (it is `10 ^ (peak_ceiling / 20) > 0`, transcendental).
In Rust, when `current_peak == 0.0` the `f64` division yields `+∞` and
`gain.min(+∞) = gain`; that case is modelled by the explicit zero test. -/
def final_gain (samples : List ℚ) (gain peak_limit : ℚ) : ℚ :=
  if max_peak samples = 0 then gain
  else fmin gain (peak_limit / max_peak samples)

/-- `AudioNormalizer::apply_gain` (src/audio_normalizer.rs): every sample is
scaled by `final_gain`.  The function's only possible panic is the
NaN comparison inside `max_peak`, modelled by `max_peakF`. -/
def apply_gain (samples : List ℚ) (gain peak_limit : ℚ) : List ℚ :=
  samples.map fun s => s * final_gain samples gain peak_limit

/-! ## `src/audio_limiter.rs` -/

structure Limiter where
  threshold : ℚ
  release_time : ℚ
  lookahead : Nat
deriving DecidableEq

def Limiter.MAX_THRESHOLD : ℚ := -1/10

/-- `Limiter::new` (src/audio_limiter.rs); error texts keep the static part
of the `anyhow!` format strings. -/
def Limiter.new (threshold release_time : ℚ) (lookahead_ms : Nat) :
    Except String Limiter :=
  if 0 ≤ threshold then
    .error "Threshold must be negative"
  else if Limiter.MAX_THRESHOLD < threshold then
    .error "Threshold exceeds maximum allowed value"
  else if release_time ≤ 0 then
    .error "Release time must be positive"
  else if lookahead_ms = 0 then
    .error "Lookahead must be greater than 0ms"
  else
    .ok ⟨threshold, release_time, lookahead_ms⟩

/-- `(self.lookahead as f64 * 0.001 * sample_rate as f64) as usize`
(src/audio_limiter.rs line 73): the `as usize` cast truncates toward zero,
i.e. `⌊lookahead_ms * sample_rate / 1000⌋`. -/
def lookaheadSamples (lookahead_ms sample_rate : Nat) : Nat :=
  lookahead_ms * sample_rate / 1000

/-- The inner loop of the limiter's first pass (src/audio_limiter.rs lines
89-93): `for j in 0..lookahead_samples { if i + j < gain_reduction.len()
{ gain_reduction[i+j] = gain_reduction[i+j].min(reduction); } }` —
every entry with index in `[i, i + look)` is replaced by its `min` with
`r`; all other entries are unchanged. -/
def limitWindow (r : ℚ) : Nat → Nat → List ℚ → List ℚ
  | _, _, [] => []
  | Nat.succ i, look, g :: rest => g :: limitWindow r i look rest
  | 0, Nat.succ look, g :: rest => fmin g r :: limitWindow r 0 look rest
  | 0, 0, g :: rest => g :: rest

/-- One iteration of the limiter's first pass (src/audio_limiter.rs lines
84-95) at sample index `i`: if `|samples[i]| > threshold_linear`, schedule
the reduction `threshold_linear / |samples[i]|` over the window
`[i, i + look)`. -/
def pass1Step (samples : List ℚ) (t : ℚ) (look : Nat) (gr : List ℚ)
    (i : Nat) : List ℚ :=
  if t < qabs (samples.getD i 0) then
    limitWindow (t / qabs (samples.getD i 0)) i look gr
  else gr

/-- The limiter's first pass after processing sample indices `0, …, n-1`
(the Rust `for i in 0..samples.len()` loop unrolled from the left). -/
def pass1Aux (samples : List ℚ) (t : ℚ) (look : Nat) : Nat → List ℚ → List ℚ
  | 0, gr => gr
  | Nat.succ n, gr => pass1Step samples t look (pass1Aux samples t look n gr) n

/-- The limiter's complete first pass (src/audio_limiter.rs lines 81-95):
`gain_reduction` starts as all `1.0` and every index is processed in order. -/
def pass1 (samples : List ℚ) (t : ℚ) (look : Nat) : List ℚ :=
  pass1Aux samples t look samples.length (List.replicate samples.length 1)

/-- The limiter's second pass (src/audio_limiter.rs lines 97-110), returning
the sequence of `current_reduction` values after each index is processed:
snap down instantly when the scheduled target is more severe, otherwise
relax exponentially toward the target with coefficient
`coeff = exp (-1 / release_samples)`. -/
def smoothRun (coeff : ℚ) : ℚ → List ℚ → List ℚ
  | _, [] => []
  | cur, tr :: rest =>
    let next := if tr < cur then tr else tr + (cur - tr) * coeff
    next :: smoothRun coeff next rest

/-- The per-sample gain-reduction envelope of `Limiter::process`: the
`current_reduction` value used at each output index (second pass applied to
the first pass's schedule, starting from `current_reduction = 1.0`). -/
def limiterEnvelope (samples : List ℚ) (t : ℚ) (look : Nat) (coeff : ℚ) :
    List ℚ :=
  smoothRun coeff 1 (pass1 samples t look)

/-- `Limiter::process` (src/audio_limiter.rs lines 64-113):
`output[i] = samples[i] * current_reduction` with the envelope above.
`t` stands for `threshold_linear = db_to_linear(self.threshold)` and
`coeff` for `release_coeff = exp (-1 / release_samples)` (see the file
header for why these transcendental values are parameters). -/
def process (samples : List ℚ) (t : ℚ) (look : Nat) (coeff : ℚ) : List ℚ :=
  List.zipWith (· * ·) samples (limiterEnvelope samples t look coeff)

/-! ## IEEE NaN model

A minimal model of `f64` values sufficient for the NaN-sensitive code paths:
a value is either a (finite) rational or NaN.  Per IEEE 754, every ordered
comparison involving NaN evaluates to `false`, and Rust's
`PartialOrd::partial_cmp` returns `None` when either operand is NaN. -/

inductive F where
  | num (q : ℚ)
  | nan
deriving DecidableEq

/-- `f64::abs`: NaN stays NaN. -/
def F.abs : F → F
  | .num q => .num (qabs q)
  | .nan => .nan

/-- `a >= b` on `f64`: false whenever either operand is NaN. -/
def F.ge : F → F → Bool
  | .num a, .num b => decide (b ≤ a)
  | _, _ => false

/-- `a > b` on `f64`: false whenever either operand is NaN. -/
def F.gt : F → F → Bool
  | .num a, .num b => decide (b < a)
  | _, _ => false

/-- `a <= b` on `f64`: false whenever either operand is NaN. -/
def F.le : F → F → Bool
  | .num a, .num b => decide (a ≤ b)
  | _, _ => false

/-- `f64::partial_cmp`: `None` whenever either operand is NaN. -/
def F.cmpPartial : F → F → Option Ordering
  | .num a, .num b =>
    some (if a < b then .lt else if b < a then .gt else .eq)
  | _, _ => none

/-- One comparison step of `Iterator::max_by(|a, b| a.partial_cmp(b).unwrap())`:
`max_by(v1, v2, compare) = if compare == Greater { v1 } else { v2 }`.
The `.error` case models the panic of `Option::unwrap` on `None`. -/
def maxfF (a b : F) : Except String F :=
  match F.cmpPartial a b with
  | some o => .ok (if o = .gt then a else b)
  | none => .error "called Option::unwrap() on a None value"

/-- `Iterator::max_by` as the left fold Rust's `reduce` performs, with the
accumulator `none` before the first element; a panicking comparison aborts
the whole computation. -/
def maxByF : Option F → List F → Except String (Option F)
  | acc, [] => .ok acc
  | none, x :: xs => maxByF (some x) xs
  | some a, x :: xs =>
    match maxfF a x with
    | .ok m => maxByF (some m) xs
    | .error e => .error e

/-- `max_peak` (src/dsp.rs) over the NaN-aware float model:
`samples.iter().map(abs).max_by(partial_cmp.unwrap).unwrap_or(0.0)`.
An `.error` result models a panic of the `unwrap` inside `max_by`. -/
def max_peakF (samples : List F) : Except String F :=
  (maxByF none (samples.map F.abs)).map fun o => o.getD (F.num 0)

structure FLimiter where
  threshold : F
  release_time : F
  lookahead : Nat
deriving DecidableEq

/-- `Limiter::new` (src/audio_limiter.rs) over the NaN-aware float model;
each rejecting comparison follows IEEE semantics (false on NaN). -/
def FLimiter.new (threshold release_time : F) (lookahead_ms : Nat) :
    Except String FLimiter :=
  if F.ge threshold (F.num 0) then
    .error "Threshold must be negative"
  else if F.gt threshold (F.num (-1/10)) then
    .error "Threshold exceeds maximum allowed value"
  else if F.le release_time (F.num 0) then
    .error "Release time must be positive"
  else if lookahead_ms = 0 then
    .error "Lookahead must be greater than 0ms"
  else
    .ok ⟨threshold, release_time, lookahead_ms⟩

structure FNormalizer where
  target_loudness : F
  peak_ceiling : F
deriving DecidableEq

/-- `AudioNormalizer::new` (src/audio_normalizer.rs) over the NaN-aware float
model. -/
def FNormalizer.new (target_loudness peak_ceiling : F) :
    Except String FNormalizer :=
  if F.ge target_loudness (F.num 0) then
    .error "Target loudness must be negative"
  else if F.ge peak_ceiling (F.num 0) then
    .error "Peak ceiling must be negative"
  else if F.gt target_loudness (F.num (-10)) then
    .error "Target loudness exceeds maximum allowed value"
  else if F.gt peak_ceiling (F.num (-1/10)) then
    .error "Peak ceiling exceeds maximum allowed value"
  else
    .ok ⟨target_loudness, peak_ceiling⟩

/-! ## `src/discord.rs`

`DiscordClient::process_and_upload_sound` issues, in program order:
`get_guild_sounds`, then — when a sound of the same name already exists —
`create_soundboard_sound` followed (only after `create` returned `Ok`,
because of the `?` operator) by `delete_soundboard_sound`; when no sound of
that name exists, only `create_soundboard_sound`.  The local steps before
any network call (`decode_file`, `processor.process`, `write_to_buffer`)
can only abort the function before any call is issued, so they are elided.
The model records the sequence of issued calls together with each call's
outcome; `sounds` is the remote listing as `(name, sound_id)` pairs and the
`…Ok` flags are the network outcomes of the respective requests. -/

inductive DiscordCall where
  | getSounds
  | create (sound_id : String)
  | delete (sound_id : String)
deriving DecidableEq

/-- The network-call trace of `DiscordClient::process_and_upload_sound`
(src/discord.rs lines 103-161). -/
def process_and_upload_sound (getOk : Bool) (sounds : List (String × String))
    (sound_name : String) (createOk deleteOk : Bool) :
    List (DiscordCall × Bool) :=
  if getOk then
    (.getSounds, true) ::
      match sounds.find? (fun s => s.1 == sound_name) with
      | some s =>
        (.create s.2, createOk) ::
          (if createOk then [(.delete s.2, deleteOk)] else [])
      | none => [(.create sound_name, createOk)]
  else [(.getSounds, false)]

/-! ## Bridge lemmas for the explicit comparison operators -/

theorem fmin_eq_min (a b : ℚ) : fmin a b = min a b := (min_def a b).symm

theorem fmax_eq_max (a b : ℚ) : fmax a b = max a b := (max_def a b).symm

theorem qabs_eq_abs (q : ℚ) : qabs q = |q| := by
  rw [qabs]
  split
  · rw [abs_of_neg (by assumption)]
  · rw [abs_of_nonneg (le_of_not_lt (by assumption))]

/-! ## Peak scanner lemmas -/

theorem foldl_fmax_init_le (l : List ℚ) : ∀ a : ℚ, a ≤ l.foldl fmax a := by
  induction l with
  | nil => intro a; simp
  | cons x xs ih =>
    intro a
    rw [List.foldl_cons]
    exact le_trans (by rw [fmax_eq_max]; exact le_max_left a x) (ih (fmax a x))

theorem le_foldl_fmax_of_mem {x : ℚ} {l : List ℚ} (h : x ∈ l) :
    ∀ a : ℚ, x ≤ l.foldl fmax a := by
  induction l with
  | nil => cases h
  | cons y ys ih =>
    intro a
    rw [List.foldl_cons]
    rcases List.mem_cons.1 h with rfl | hmem
    · exact le_trans (by rw [fmax_eq_max]; exact le_max_right a x)
        (foldl_fmax_init_le ys (fmax a x))
    · exact ih hmem (fmax a y)

theorem foldl_fmax_le {c : ℚ} (l : List ℚ) :
    ∀ a : ℚ, a ≤ c → (∀ x ∈ l, x ≤ c) → l.foldl fmax a ≤ c := by
  induction l with
  | nil => intro a ha _; simpa using ha
  | cons y ys ih =>
    intro a ha h
    rw [List.foldl_cons]
    refine ih (fmax a y) ?_ fun x hx => h x (List.mem_cons_of_mem y hx)
    rw [fmax_eq_max]
    exact max_le ha (h y (List.mem_cons_self y ys))

theorem max_peak_nonneg (samples : List ℚ) : 0 ≤ max_peak samples :=
  foldl_fmax_init_le _ 0

theorem abs_le_max_peak {s : ℚ} {samples : List ℚ} (h : s ∈ samples) :
    |s| ≤ max_peak samples := by
  rw [← qabs_eq_abs]
  exact le_foldl_fmax_of_mem (List.mem_map_of_mem _ h) 0

theorem max_peak_le_of_forall {c : ℚ} {samples : List ℚ} (hc : 0 ≤ c)
    (h : ∀ s ∈ samples, |s| ≤ c) : max_peak samples ≤ c := by
  refine foldl_fmax_le _ 0 hc fun x hx => ?_
  obtain ⟨s, hs, rfl⟩ := List.mem_map.1 hx
  rw [qabs_eq_abs]
  exact h s hs

theorem eq_zero_of_max_peak_eq_zero {s : ℚ} {samples : List ℚ}
    (h0 : max_peak samples = 0) (hs : s ∈ samples) : s = 0 := by
  have h1 : |s| ≤ 0 := h0 ▸ abs_le_max_peak hs
  exact abs_eq_zero.1 (le_antisymm h1 (abs_nonneg s))

theorem max_peak_replicate_zero (n : Nat) :
    max_peak (List.replicate n (0 : ℚ)) = 0 :=
  le_antisymm
    (max_peak_le_of_forall le_rfl fun s hs => by
      rw [List.eq_of_mem_replicate hs]; simp)
    (max_peak_nonneg _)

/-! ## Limiter first pass: window update lemmas -/

theorem limitWindow_length (r : ℚ) (i look : Nat) (gr : List ℚ) :
    (limitWindow r i look gr).length = gr.length := by
  induction gr generalizing i look with
  | nil => cases i <;> cases look <;> simp [limitWindow]
  | cons g rest ih =>
    cases i with
    | succ i => simp [limitWindow, ih]
    | zero =>
      cases look with
      | zero => simp [limitWindow]
      | succ look => simp [limitWindow, ih]

theorem limitWindow_getD (r : ℚ) (i look : Nat) (gr : List ℚ) (idx : Nat) :
    (limitWindow r i look gr).getD idx 0 =
      if i ≤ idx ∧ idx < i + look ∧ idx < gr.length then fmin (gr.getD idx 0) r
      else gr.getD idx 0 := by
  induction gr generalizing i look idx with
  | nil => cases i <;> cases look <;> simp [limitWindow]
  | cons g rest ih =>
    cases i with
    | succ i =>
      cases idx with
      | zero => simp [limitWindow]
      | succ idx =>
        simp only [limitWindow, List.getD_cons_succ]
        rw [ih i look idx]
        exact if_congr (by simp only [List.length_cons]; omega) rfl rfl
    | zero =>
      cases look with
      | zero =>
        have : ¬ (0 ≤ idx ∧ idx < 0 + 0 ∧ idx < (g :: rest).length) := by omega
        simp [limitWindow, this]
      | succ look =>
        cases idx with
        | zero =>
          have : 0 ≤ 0 ∧ 0 < 0 + (look + 1) ∧ 0 < (g :: rest).length := by
            refine ⟨le_rfl, by omega, by simp⟩
          simp [limitWindow, this]
        | succ idx =>
          simp only [limitWindow, List.getD_cons_succ]
          rw [ih 0 look idx]
          exact if_congr (by simp only [List.length_cons]; omega) rfl rfl

/-! ## Limiter first pass: loop invariants -/

theorem pass1Step_length (samples : List ℚ) (t : ℚ) (look : Nat)
    (gr : List ℚ) (i : Nat) :
    (pass1Step samples t look gr i).length = gr.length := by
  rw [pass1Step]
  split
  · exact limitWindow_length ..
  · rfl

theorem pass1Step_getD_le (samples : List ℚ) (t : ℚ) (look : Nat)
    (gr : List ℚ) (i idx : Nat) :
    (pass1Step samples t look gr i).getD idx 0 ≤ gr.getD idx 0 := by
  rw [pass1Step]
  split
  · rw [limitWindow_getD]
    split
    · rw [fmin_eq_min]; exact min_le_left _ _
    · exact le_rfl
  · exact le_rfl

theorem pass1Aux_length (samples : List ℚ) (t : ℚ) (look : Nat) (n : Nat)
    (gr : List ℚ) : (pass1Aux samples t look n gr).length = gr.length := by
  induction n with
  | zero => rfl
  | succ n ih => rw [pass1Aux, pass1Step_length, ih]

theorem pass1Aux_getD_le (samples : List ℚ) (t : ℚ) (look : Nat) (n : Nat)
    (gr : List ℚ) (idx : Nat) :
    (pass1Aux samples t look n gr).getD idx 0 ≤ gr.getD idx 0 := by
  induction n with
  | zero => exact le_rfl
  | succ n ih => exact le_trans (pass1Step_getD_le ..) ih

theorem pass1_length (samples : List ℚ) (t : ℚ) (look : Nat) :
    (pass1 samples t look).length = samples.length := by
  rw [pass1, pass1Aux_length, List.length_replicate]

theorem getD_replicate_one {n i : Nat} (h : i < n) :
    (List.replicate n (1 : ℚ)).getD i 0 = 1 := by
  rw [List.getD_eq_getElem _ _ (by simpa using h)]
  simp

theorem pass1_getD_le_one {samples : List ℚ} {t : ℚ} {look : Nat} {idx : Nat}
    (h : idx < samples.length) : (pass1 samples t look).getD idx 0 ≤ 1 := by
  rw [pass1]
  exact le_trans (pass1Aux_getD_le ..) (le_of_eq (getD_replicate_one h))

theorem pass1Step_getD_pos {samples : List ℚ} {t : ℚ} {look : Nat}
    {gr : List ℚ} {i : Nat} (ht : 0 < t)
    (h : ∀ idx < gr.length, 0 < gr.getD idx 0) :
    ∀ idx < gr.length, 0 < (pass1Step samples t look gr i).getD idx 0 := by
  intro idx hidx
  rw [pass1Step]
  split
  · rw [limitWindow_getD]
    split
    · rw [fmin_eq_min]
      refine lt_min (h idx hidx) (div_pos ht (lt_trans ht ?_))
      assumption
    · exact h idx hidx
  · exact h idx hidx

theorem pass1_getD_pos {samples : List ℚ} {t : ℚ} {look : Nat}
    (ht : 0 < t) :
    ∀ idx < samples.length, 0 < (pass1 samples t look).getD idx 0 := by
  rw [pass1]
  have key : ∀ n, ∀ idx < samples.length,
      0 < (pass1Aux samples t look n
        (List.replicate samples.length 1)).getD idx 0 := by
    intro n
    induction n with
    | zero =>
      intro idx hidx
      rw [pass1Aux, getD_replicate_one hidx]
      exact one_pos
    | succ n ih =>
      intro idx hidx
      rw [pass1Aux]
      have hlen : (pass1Aux samples t look n
          (List.replicate samples.length 1)).length = samples.length := by
        rw [pass1Aux_length, List.length_replicate]
      exact pass1Step_getD_pos ht (fun j hj => ih j (hlen ▸ hj)) idx
        (by rw [hlen]; exact hidx)
  exact key samples.length

theorem pass1Aux_getD_overshoot {samples : List ℚ} {t : ℚ} {look : Nat}
    {i : Nat} (hlook : 1 ≤ look) (hov : t < qabs (samples.getD i 0)) :
    ∀ n gr, i < n → i < gr.length →
      (pass1Aux samples t look n gr).getD i 0 ≤ t / qabs (samples.getD i 0) := by
  intro n
  induction n with
  | zero => intro gr h; omega
  | succ n ih =>
    intro gr hin higr
    rw [pass1Aux]
    by_cases h : i < n
    · exact le_trans (pass1Step_getD_le ..) (ih gr h higr)
    · have hi : i = n := by omega
      subst hi
      rw [pass1Step, if_pos hov, limitWindow_getD]
      rw [if_pos ⟨le_rfl, by omega, by rw [pass1Aux_length]; exact higr⟩]
      rw [fmin_eq_min]
      exact min_le_right _ _

theorem pass1_getD_overshoot {samples : List ℚ} {t : ℚ} {look : Nat}
    {i : Nat} (hlook : 1 ≤ look) (hi : i < samples.length)
    (hov : t < qabs (samples.getD i 0)) :
    (pass1 samples t look).getD i 0 ≤ t / qabs (samples.getD i 0) := by
  rw [pass1]
  exact pass1Aux_getD_overshoot hlook hov samples.length _ hi
    (by rw [List.length_replicate]; exact hi)

/-! ## Limiter second pass: smoothing lemmas -/

/-- The updated `current_reduction` never exceeds the scheduled target. -/
theorem relax_le_target {tr cur coeff : ℚ} (hc0 : 0 ≤ coeff) :
    (if tr < cur then tr else tr + (cur - tr) * coeff) ≤ tr := by
  split
  · exact le_rfl
  · have hle : cur - tr ≤ 0 := by linarith [le_of_not_lt (by assumption : ¬ tr < cur)]
    nlinarith

/-- The updated `current_reduction` stays nonnegative. -/
theorem relax_nonneg {tr cur coeff : ℚ} (hc0 : 0 ≤ coeff) (hc1 : coeff ≤ 1)
    (htr : 0 ≤ tr) (hcur : 0 ≤ cur) :
    0 ≤ (if tr < cur then tr else tr + (cur - tr) * coeff) := by
  split
  · exact htr
  · have : tr + (cur - tr) * coeff = tr * (1 - coeff) + cur * coeff := by ring
    rw [this]
    have h1 : 0 ≤ tr * (1 - coeff) := mul_nonneg htr (by linarith)
    have h2 : 0 ≤ cur * coeff := mul_nonneg hcur hc0
    linarith

theorem smoothRun_length (coeff : ℚ) (cur : ℚ) (l : List ℚ) :
    (smoothRun coeff cur l).length = l.length := by
  induction l generalizing cur with
  | nil => rfl
  | cons tr rest ih => simp [smoothRun, ih]

theorem smoothRun_getD_le_target {coeff : ℚ} (hc0 : 0 ≤ coeff) (l : List ℚ) :
    ∀ (cur : ℚ) (idx : Nat), idx < l.length →
      (smoothRun coeff cur l).getD idx 0 ≤ l.getD idx 0 := by
  induction l with
  | nil => intro cur idx h; simp at h
  | cons tr rest ih =>
    intro cur idx hidx
    cases idx with
    | zero =>
      simp only [smoothRun, List.getD_cons_zero]
      exact relax_le_target hc0
    | succ idx =>
      simp only [smoothRun, List.getD_cons_succ]
      exact ih _ idx (by simpa using hidx)

theorem smoothRun_getD_nonneg {coeff : ℚ} (hc0 : 0 ≤ coeff) (hc1 : coeff ≤ 1)
    (l : List ℚ) :
    ∀ cur : ℚ, 0 ≤ cur → (∀ x ∈ l, 0 ≤ x) → ∀ idx : Nat,
      0 ≤ (smoothRun coeff cur l).getD idx 0 := by
  induction l with
  | nil => intro cur _ _ idx; simp [smoothRun]
  | cons tr rest ih =>
    intro cur hcur hall idx
    have htr : 0 ≤ tr := hall tr (List.mem_cons_self tr rest)
    cases idx with
    | zero =>
      simp only [smoothRun, List.getD_cons_zero]
      exact relax_nonneg hc0 hc1 htr hcur
    | succ idx =>
      simp only [smoothRun, List.getD_cons_succ]
      exact ih _ (relax_nonneg hc0 hc1 htr hcur)
        (fun x hx => hall x (List.mem_cons_of_mem tr hx)) idx

theorem smoothRun_getD_succ (coeff : ℚ) (l : List ℚ) :
    ∀ (cur : ℚ) (k : Nat), k + 1 < l.length →
      (smoothRun coeff cur l).getD (k + 1) 0 =
        (if l.getD (k + 1) 0 < (smoothRun coeff cur l).getD k 0
         then l.getD (k + 1) 0
         else l.getD (k + 1) 0 +
           ((smoothRun coeff cur l).getD k 0 - l.getD (k + 1) 0) * coeff) := by
  induction l with
  | nil => intro cur k h; simp at h
  | cons tr rest ih =>
    intro cur k hk
    cases k with
    | zero =>
      cases rest with
      | nil => simp at hk
      | cons tr1 rest1 =>
        simp only [smoothRun, List.getD_cons_succ, List.getD_cons_zero]
    | succ k =>
      simp only [smoothRun, List.getD_cons_succ]
      exact ih _ k (by simpa using hk)

/-- If the schedule is `1.0` up to and including index `j`, the envelope that
starts at `current_reduction = 1.0` is still exactly `1.0` at index `j`. -/
theorem smoothRun_getD_one (coeff : ℚ) (l : List ℚ) :
    ∀ j : Nat, j < l.length → (∀ idx ≤ j, l.getD idx 0 = 1) →
      (smoothRun coeff 1 l).getD j 0 = 1 := by
  induction l with
  | nil => intro j h; simp at h
  | cons tr rest ih =>
    intro j hj hall
    have htr : tr = 1 := by simpa using hall 0 (Nat.zero_le j)
    subst htr
    have hstep : (if (1:ℚ) < 1 then (1:ℚ) else 1 + (1 - 1) * coeff) = 1 := by
      rw [if_neg (lt_irrefl 1)]; ring
    cases j with
    | zero => simp only [smoothRun, List.getD_cons_zero]; exact hstep
    | succ j =>
      simp only [smoothRun, List.getD_cons_succ, hstep]
      exact ih j (by simpa using hj)
        (fun idx hidx => by simpa using hall (idx + 1) (by omega))

/-! ## Envelope and output lemmas -/

theorem pass1_mem_nonneg {samples : List ℚ} {t : ℚ} {look : Nat} (ht : 0 < t) :
    ∀ x ∈ pass1 samples t look, 0 ≤ x := by
  intro x hx
  obtain ⟨i, h, rfl⟩ := List.mem_iff_getElem.1 hx
  have hlen : i < samples.length := by rwa [pass1_length] at h
  have hpos := @pass1_getD_pos samples t look ht i hlen
  rw [List.getD_eq_getElem _ _ h] at hpos
  exact le_of_lt hpos

theorem limiterEnvelope_length (samples : List ℚ) (t : ℚ) (look : Nat)
    (coeff : ℚ) :
    (limiterEnvelope samples t look coeff).length = samples.length := by
  rw [limiterEnvelope, smoothRun_length, pass1_length]

theorem limiterEnvelope_getD_nonneg {samples : List ℚ} {t coeff : ℚ}
    {look : Nat} (ht : 0 < t) (hc0 : 0 ≤ coeff) (hc1 : coeff ≤ 1)
    (idx : Nat) : 0 ≤ (limiterEnvelope samples t look coeff).getD idx 0 := by
  rw [limiterEnvelope]
  exact smoothRun_getD_nonneg hc0 hc1 _ 1 one_pos.le (pass1_mem_nonneg ht) idx

theorem limiterEnvelope_getD_le_pass1 {samples : List ℚ} {t coeff : ℚ}
    {look idx : Nat} (hc0 : 0 ≤ coeff) (hidx : idx < samples.length) :
    (limiterEnvelope samples t look coeff).getD idx 0 ≤
      (pass1 samples t look).getD idx 0 := by
  rw [limiterEnvelope]
  exact smoothRun_getD_le_target hc0 _ 1 idx (by rwa [pass1_length])

theorem process_getD {samples : List ℚ} {t coeff : ℚ} {look i : Nat}
    (hi : i < samples.length) :
    (process samples t look coeff).getD i 0 =
      samples.getD i 0 * (limiterEnvelope samples t look coeff).getD i 0 := by
  have henv : i < (limiterEnvelope samples t look coeff).length := by
    rw [limiterEnvelope_length]; exact hi
  have hz : i <
      (List.zipWith (· * ·) samples
        (limiterEnvelope samples t look coeff)).length := by
    rw [List.length_zipWith, limiterEnvelope_length]; omega
  rw [process, List.getD_eq_getElem _ _ hz, List.getElem_zipWith,
    List.getD_eq_getElem _ _ hi, List.getD_eq_getElem _ _ henv]

/-- Core output bound of `Limiter::process`: with a positive linear
threshold, at least one lookahead sample and a release coefficient in
`[0, 1]`, every output sample is bounded by the linear threshold. -/
theorem process_abs_getD_le {samples : List ℚ} {t coeff : ℚ} {look i : Nat}
    (ht : 0 < t) (hlook : 1 ≤ look) (hc0 : 0 ≤ coeff) (hc1 : coeff ≤ 1)
    (hi : i < samples.length) :
    |(process samples t look coeff).getD i 0| ≤ t := by
  rw [process_getD hi, abs_mul]
  have henv0 : 0 ≤ (limiterEnvelope samples t look coeff).getD i 0 :=
    limiterEnvelope_getD_nonneg ht hc0 hc1 i
  rw [abs_of_nonneg henv0, ← qabs_eq_abs (samples.getD i 0)]
  have hqabs0 : 0 ≤ qabs (samples.getD i 0) := by
    rw [qabs_eq_abs]; exact abs_nonneg _
  have henvgr : (limiterEnvelope samples t look coeff).getD i 0 ≤
      (pass1 samples t look).getD i 0 := limiterEnvelope_getD_le_pass1 hc0 hi
  by_cases hov : t < qabs (samples.getD i 0)
  · have habs_pos : 0 < qabs (samples.getD i 0) := lt_trans ht hov
    have hgr : (pass1 samples t look).getD i 0 ≤
        t / qabs (samples.getD i 0) := pass1_getD_overshoot hlook hi hov
    calc qabs (samples.getD i 0) *
          (limiterEnvelope samples t look coeff).getD i 0
        ≤ qabs (samples.getD i 0) * (t / qabs (samples.getD i 0)) :=
          mul_le_mul_of_nonneg_left (le_trans henvgr hgr) hqabs0
      _ = t := by
          rw [mul_comm]
          exact div_mul_cancel₀ t (ne_of_gt habs_pos)
  · have h1 : qabs (samples.getD i 0) ≤ t := le_of_not_lt hov
    have h2 : (limiterEnvelope samples t look coeff).getD i 0 ≤ 1 :=
      le_trans henvgr (pass1_getD_le_one hi)
    calc qabs (samples.getD i 0) *
          (limiterEnvelope samples t look coeff).getD i 0
        ≤ t * 1 := mul_le_mul h1 h2 henv0 (le_of_lt ht)
      _ = t := mul_one t

/-! ## Lemmas for the lookahead (C2) and release-monotonicity (C5) claims -/

/-- If no sample with index below `k` overshoots, the first pass leaves every
schedule entry below `k` at `1.0`: each processed index `i` either does not
overshoot (`i < k`) or writes only to the window `[i, i + look)`, which lies
entirely at or above `k`. -/
theorem pass1Aux_getD_quiet {samples : List ℚ} {t : ℚ} {look k j : Nat}
    (hquiet : ∀ i' < k, ¬ t < qabs (samples.getD i' 0)) (hj : j < k) :
    ∀ n (gr : List ℚ), gr.getD j 0 = 1 →
      (pass1Aux samples t look n gr).getD j 0 = 1 := by
  intro n
  induction n with
  | zero => intro gr h; exact h
  | succ n ih =>
    intro gr h
    rw [pass1Aux, pass1Step]
    split
    · have hkn : k ≤ n := by
        by_contra hnk
        exact hquiet n (by omega) (by assumption)
      rw [limitWindow_getD, if_neg]
      · exact ih gr h
      · rintro ⟨h1, -, -⟩
        omega
    · exact ih gr h

theorem pass1_getD_quiet {samples : List ℚ} {t : ℚ} {look k j : Nat}
    (hquiet : ∀ i' < k, ¬ t < qabs (samples.getD i' 0)) (hj : j < k)
    (hjlen : j < samples.length) :
    (pass1 samples t look).getD j 0 = 1 := by
  rw [pass1]
  exact pass1Aux_getD_quiet hquiet hj _ _ (getD_replicate_one hjlen)

/-- Between two indices with no intervening snap-down, the envelope is
monotone nondecreasing. -/
theorem limiterEnvelope_mono_aux {samples : List ℚ} {t coeff : ℚ}
    {look : Nat} (hc1 : coeff ≤ 1) {i : Nat} :
    ∀ j, i ≤ j → j < samples.length →
      (∀ k, i < k → k ≤ j →
        ¬ ((pass1 samples t look).getD k 0 <
            (limiterEnvelope samples t look coeff).getD (k - 1) 0)) →
      (limiterEnvelope samples t look coeff).getD i 0 ≤
        (limiterEnvelope samples t look coeff).getD j 0 := by
  intro j
  induction j with
  | zero =>
    intro hij _ _
    have h0 : i = 0 := Nat.le_zero.1 hij
    rw [h0]
  | succ j ih =>
    intro hij hlen hsnap
    by_cases heq : i = j + 1
    · rw [heq]
    · have hij' : i ≤ j := by omega
      have hstep : (limiterEnvelope samples t look coeff).getD j 0 ≤
          (limiterEnvelope samples t look coeff).getD (j + 1) 0 := by
        have hk := hsnap (j + 1) (by omega) le_rfl
        have hl : j + 1 < (pass1 samples t look).length := by
          rw [pass1_length]; exact hlen
        have hrel := smoothRun_getD_succ coeff (pass1 samples t look) 1 j hl
        rw [limiterEnvelope] at hk ⊢
        simp only [Nat.add_sub_cancel] at hk
        rw [hrel, if_neg hk]
        have hge2 : (smoothRun coeff 1 (pass1 samples t look)).getD j 0 ≤
            (pass1 samples t look).getD (j + 1) 0 := le_of_not_lt hk
        nlinarith [mul_nonneg (sub_nonneg.2 hge2) (sub_nonneg.2 hc1)]
      exact le_trans
        (ih hij' (by omega) (fun k hk1 hk2 => hsnap k hk1 (by omega))) hstep

/-! ## NaN-free buffers never panic in `max_peak` -/

theorem qabs_nonneg (q : ℚ) : 0 ≤ qabs q := by
  rw [qabs_eq_abs]; exact abs_nonneg q

theorem maxfF_num (a b : ℚ) : maxfF (F.num a) (F.num b) = .ok (F.num (fmax a b)) := by
  rw [maxfF, F.cmpPartial]
  rcases lt_trichotomy a b with h | h | h
  · rw [if_pos h]
    have hmax : fmax a b = b := by rw [fmax, if_pos h.le]
    simp [hmax]
  · subst h
    have hmax : fmax a a = a := by rw [fmax, if_pos le_rfl]
    simp [hmax]
  · rw [if_neg (not_lt.2 h.le), if_pos h]
    have hmax : fmax a b = a := by rw [fmax, if_neg (not_le.2 h)]
    simp [hmax]

theorem maxByF_num (l : List ℚ) : ∀ a : ℚ,
    maxByF (some (F.num a)) (l.map F.num) = .ok (some (F.num (l.foldl fmax a))) := by
  induction l with
  | nil => intro a; rfl
  | cons x xs ih =>
    intro a
    simp only [List.map_cons, maxByF, maxfF_num, List.foldl_cons]
    exact ih (fmax a x)

theorem max_peakF_num (l : List ℚ) :
    max_peakF (l.map F.num) = .ok (F.num (max_peak l)) := by
  cases l with
  | nil => rfl
  | cons x xs =>
    have hmap : (List.map F.num (x :: xs)).map F.abs =
        F.num (qabs x) :: (xs.map qabs).map F.num := by
      simp only [List.map_cons, List.map_map]
      refine congrArg (F.num (qabs x) :: ·) ?_
      exact List.map_congr_left fun q _ => rfl
    rw [max_peakF, hmap]
    have h1 : maxByF none (F.num (qabs x) :: (xs.map qabs).map F.num) =
        maxByF (some (F.num (qabs x))) ((xs.map qabs).map F.num) := rfl
    rw [h1, maxByF_num]
    have h0 : fmax 0 (qabs x) = qabs x := by rw [fmax, if_pos (qabs_nonneg x)]
    simp [max_peak, Except.map, h0]

theorem Except_isOk_ok {ε α : Type} (a : α) :
    (Except.ok a : Except ε α).isOk = true := rfl

theorem Except_isOk_error {ε α : Type} (e : ε) :
    ¬ (Except.error e : Except ε α).isOk = true := by
  intro h
  exact Bool.false_ne_true h

/-! ## Claim theorems -/

/-- C1, counterexample to the claim as stated: at sample rate 100 Hz with the
default `lookahead_ms = 5`, the conversion truncates to `lookahead_samples = 0`,
the reduction window `[i, i+0)` is empty, and the limiter passes the buffer
through unchanged.  With `threshold_linear = 9/10` (i.e. `threshold_db =
20*log10(0.9) ≈ -0.915 dB`, a validly constructed config) and the one-sample
buffer `[1.0]`, the output sample `1.0` exceeds `threshold_linear + ε` even
for the generous tolerance `ε = 1/100`. -/
theorem C1_counterexample_zero_lookahead :
    lookaheadSamples 5 100 = 0 ∧
    process [1] (9/10) (lookaheadSamples 5 100) 0 = [1] ∧
    ¬ (|(process [1] (9/10) (lookaheadSamples 5 100) 0).getD 0 0| ≤
        9/10 + 1/100) := by
  refine ⟨rfl, ?_, ?_⟩ <;>
    norm_num [process, limiterEnvelope, pass1, pass1Aux, pass1Step,
      limitWindow, smoothRun, qabs, fmin, lookaheadSamples]

/-- C1 (amended): for every buffer, every successfully constructed limiter
config, and every sample rate such that `lookahead_ms * sample_rate ≥ 1000`
(at least one lookahead sample survives the truncating conversion), every
output sample of `Limiter::process` satisfies `|output[i]| ≤ threshold_linear`
exactly (hence `≤ threshold_linear + ε` for every `ε ≥ 0`).  `t` is
`db_to_linear(threshold_db) > 0` and `coeff = exp(-1/release_samples) ∈ [0,1]`
(see the file header). -/
theorem C1_limiter_output_bounded (samples : List ℚ) (th rt t coeff : ℚ)
    (lms rate i : Nat) (cfg : Limiter)
    (hnew : Limiter.new th rt lms = .ok cfg)
    (ht : 0 < t) (hc0 : 0 ≤ coeff) (hc1 : coeff ≤ 1)
    (hlook : 1000 ≤ cfg.lookahead * rate)
    (hi : i < samples.length) :
    |(process samples t (lookaheadSamples cfg.lookahead rate) coeff).getD i 0|
      ≤ t := by
  have hlook1 : 1 ≤ lookaheadSamples cfg.lookahead rate := by
    rw [lookaheadSamples]
    exact (Nat.le_div_iff_mul_le (by norm_num)).2 (by omega)
  exact process_abs_getD_le ht hlook1 hc0 hc1 hi

theorem C1_limiter_output_bounded_witness :
    (0:ℚ) < 9/10 ∧
    |(process [1, 0] (9/10) (lookaheadSamples 5 48000) (1/2)).getD 0 0| ≤
      9/10 := by
  refine ⟨by norm_num, ?_⟩
  exact C1_limiter_output_bounded [1, 0] (-1) 50 (9/10) (1/2) 5 48000 0
    ⟨-1, 50, 5⟩ (by norm_num [Limiter.new, Limiter.MAX_THRESHOLD])
    (by norm_num) (by norm_num) (by norm_num) (by norm_num) (by norm_num)

/-- C2 (the code contradicts the claim): for the 48,000-sample buffer that is
zero except for a spike of amplitude 1.0 at index `k > 0`, limited at
48,000 Hz with `lookahead_ms = 5`, the gain-reduction envelope equals `1.0`
at EVERY index strictly before the spike: the first pass writes the
reduction only into the forward window `[i, i + lookahead_samples)`, so
nothing before the spike index is ever attenuated, and the envelope first
drops at the spike itself.  `t` is `db_to_linear(-1.0) ∈ (0, 1)` and `coeff`
the release coefficient; the result holds for every positive `t`. -/
theorem C2_no_reduction_before_spike (t coeff : ℚ) (k m j : Nat)
    (ht : 0 < t) (hk : 0 < k) (hlen : k + 1 + m = 48000) (hj : j < k) :
    (limiterEnvelope (List.replicate k (0:ℚ) ++ 1 :: List.replicate m 0) t
      (lookaheadSamples 5 48000) coeff).getD j 0 = 1 := by
  have hslen : (List.replicate k (0:ℚ) ++ 1 :: List.replicate m 0).length =
      k + (m + 1) := by simp
  have hget0 : ∀ i' < k,
      (List.replicate k (0:ℚ) ++ 1 :: List.replicate m 0).getD i' 0 = 0 := by
    intro i' hi'
    rw [List.getD_append _ _ _ _ (by simpa using hi')]
    rw [List.getD_eq_getElem _ _ (by simpa using hi')]
    simp
  have hquiet : ∀ i' < k,
      ¬ t < qabs
        ((List.replicate k (0:ℚ) ++ 1 :: List.replicate m 0).getD i' 0) := by
    intro i' hi'
    rw [hget0 i' hi']
    rw [show qabs 0 = 0 by rw [qabs_eq_abs, abs_zero]]
    exact not_lt.2 (le_of_lt ht)
  rw [limiterEnvelope]
  refine smoothRun_getD_one _ _ j (by rw [pass1_length, hslen]; omega) ?_
  intro idx hidx
  exact pass1_getD_quiet hquiet (by omega) (by rw [hslen]; omega)

theorem C2_no_reduction_before_spike_witness :
    (0:ℚ) < 9/10 ∧ 24000 + 1 + 23999 = 48000 ∧
    (limiterEnvelope
      (List.replicate 24000 (0:ℚ) ++ 1 :: List.replicate 23999 0) (9/10)
      (lookaheadSamples 5 48000) (1/2)).getD 100 0 = 1 := by
  refine ⟨by norm_num, by norm_num, ?_⟩
  exact C2_no_reduction_before_spike (9/10) (1/2) 24000 23999 100
    (by norm_num) (by norm_num) (by norm_num) (by norm_num)

/-- C3, counterexample to the claim as stated: the claim quantifies over
EVERY unclamped gain, but for a negative gain (e.g. `-2`) the clamp
`final_gain = min(gain, peak_limit / current_peak)` selects the negative
gain itself, and scaling amplifies the buffer: with buffer `[1.0]` and
`peak_limit = 9/10` the result has peak `2 > 9/10 + 1/100`. -/
theorem C3_counterexample_negative_gain :
    max_peak (apply_gain [1] (-2) (9/10)) = 2 ∧
    ¬ (max_peak (apply_gain [1] (-2) (9/10)) ≤ 9/10 + 1/100) := by
  constructor <;>
    norm_num [max_peak, apply_gain, final_gain, qabs, fmin, fmax]

/-- C3 (amended): for every buffer and every NONNEGATIVE unclamped gain (the
gains the pipeline produces are `10^(x/20) > 0`), the buffer scaled by
`final_gain` has `max_peak` at most `peak_limit = db_to_linear(peak_ceiling)`
exactly (hence `≤ peak_limit + ε` for every `ε ≥ 0`). -/
theorem C3_ceiling_clamp (samples : List ℚ) (gain peak_limit : ℚ)
    (hg : 0 ≤ gain) (hpl : 0 < peak_limit) :
    max_peak (apply_gain samples gain peak_limit) ≤ peak_limit := by
  refine max_peak_le_of_forall (le_of_lt hpl) ?_
  intro s hs
  rw [apply_gain] at hs
  obtain ⟨x, hx, rfl⟩ := List.mem_map.1 hs
  rw [abs_mul]
  by_cases h0 : max_peak samples = 0
  · rw [eq_zero_of_max_peak_eq_zero h0 hx]
    simpa using le_of_lt hpl
  · have hcp : 0 < max_peak samples :=
      lt_of_le_of_ne (max_peak_nonneg samples) (Ne.symm h0)
    have hfg : final_gain samples gain peak_limit =
        fmin gain (peak_limit / max_peak samples) := by
      rw [final_gain, if_neg h0]
    have hfg0 : 0 ≤ final_gain samples gain peak_limit := by
      rw [hfg, fmin_eq_min]
      exact le_min hg (le_of_lt (div_pos hpl hcp))
    rw [abs_of_nonneg hfg0]
    have h2 : final_gain samples gain peak_limit ≤
        peak_limit / max_peak samples := by
      rw [hfg, fmin_eq_min]; exact min_le_right _ _
    calc |x| * final_gain samples gain peak_limit
        ≤ max_peak samples * (peak_limit / max_peak samples) :=
          mul_le_mul (abs_le_max_peak hx) h2 hfg0 (max_peak_nonneg samples)
      _ = peak_limit := by
          rw [mul_comm]
          exact div_mul_cancel₀ peak_limit (ne_of_gt hcp)

theorem C3_ceiling_clamp_witness :
    (0:ℚ) ≤ 3 ∧ (0:ℚ) < 1/2 ∧
    max_peak (apply_gain [1/2] 3 (1/2)) ≤ 1/2 := by
  refine ⟨by norm_num, by norm_num, ?_⟩
  exact C3_ceiling_clamp [1/2] 3 (1/2) (by norm_num) (by norm_num)

/-- C4: an all-zero buffer of any length is returned as an all-zero buffer of
the same length; `current_peak = 0` makes the Rust `f64` division yield
`+∞`, so `gain.min(+∞)` falls back to the unclamped gain (the zero-peak
branch of `final_gain`); and the only possible panic site of `apply_gain`
(the `partial_cmp().unwrap()` inside the peak scan) succeeds on the NaN-free
zero buffer, as the third conjunct shows on the float model. -/
theorem C4_silent_buffer (n : Nat) (gain peak_limit : ℚ) :
    apply_gain (List.replicate n 0) gain peak_limit = List.replicate n 0 ∧
    final_gain (List.replicate n 0) gain peak_limit = gain ∧
    max_peakF ((List.replicate n (0:ℚ)).map F.num) = .ok (F.num 0) := by
  have h0 := max_peak_replicate_zero n
  have hfg : final_gain (List.replicate n 0) gain peak_limit = gain := by
    rw [final_gain, if_pos h0]
  refine ⟨?_, hfg, ?_⟩
  · rw [apply_gain, List.map_replicate, zero_mul]
  · rw [max_peakF_num, h0]

/-- C5: in the smoothing pass, between any indices `i ≤ j` with no new, more
severe scheduled reduction in between (no index `k ∈ (i, j]` whose target is
below the envelope value at `k - 1`, i.e. no snap-down), the envelope at `j`
is at least the envelope at `i`, and it never exceeds `1.0`. -/
theorem C5_release_monotone (samples : List ℚ) (t coeff : ℚ)
    (look i j : Nat) (ht : 0 < t) (hc0 : 0 ≤ coeff) (hc1 : coeff ≤ 1)
    (hij : i ≤ j) (hj : j < samples.length)
    (hsnap : ∀ k, i < k → k ≤ j →
      ¬ ((pass1 samples t look).getD k 0 <
          (limiterEnvelope samples t look coeff).getD (k - 1) 0)) :
    (limiterEnvelope samples t look coeff).getD i 0 ≤
      (limiterEnvelope samples t look coeff).getD j 0 ∧
    (limiterEnvelope samples t look coeff).getD j 0 ≤ 1 := by
  refine ⟨limiterEnvelope_mono_aux hc1 j hij hj hsnap, ?_⟩
  exact le_trans (limiterEnvelope_getD_le_pass1 hc0 hj) (pass1_getD_le_one hj)

theorem C5_release_monotone_witness :
    (0:ℚ) < 1/2 ∧
    ((limiterEnvelope [1, 0] (1/2) 1 (1/2)).getD 0 0 ≤
        (limiterEnvelope [1, 0] (1/2) 1 (1/2)).getD 1 0 ∧
      (limiterEnvelope [1, 0] (1/2) 1 (1/2)).getD 1 0 ≤ 1) := by
  refine ⟨by norm_num, ?_⟩
  refine C5_release_monotone [1, 0] (1/2) (1/2) 1 0 1 (by norm_num)
    (by norm_num) (by norm_num) (by norm_num) (by norm_num) ?_
  intro k hk1 hk2
  have hk : k = 1 := by omega
  subst hk
  norm_num [limiterEnvelope, pass1, pass1Aux, pass1Step, limitWindow,
    smoothRun, qabs, fmin]

/-- C6: `Limiter::new` succeeds exactly when the threshold is negative and at
most the configured maximum `-0.1 dB`, the release time is positive, and the
lookahead is nonzero; it fails in each of the four listed cases. -/
theorem C6_limiter_new_ok_iff (t r : ℚ) (l : Nat) :
    (Limiter.new t r l).isOk = true ↔
      (t < 0 ∧ t ≤ -1/10 ∧ 0 < r ∧ l ≠ 0) := by
  rw [Limiter.new, Limiter.MAX_THRESHOLD]
  split_ifs with h1 h2 h3 h4
  · exact iff_of_false (Except_isOk_error _) (by rintro ⟨a, -, -, -⟩; linarith)
  · exact iff_of_false (Except_isOk_error _) (by rintro ⟨-, b, -, -⟩; linarith)
  · exact iff_of_false (Except_isOk_error _) (by rintro ⟨-, -, c, -⟩; linarith)
  · exact iff_of_false (Except_isOk_error _) (by rintro ⟨-, -, -, d⟩; exact d h4)
  · exact iff_of_true (Except_isOk_ok _)
      ⟨by linarith, by linarith, by linarith, h4⟩

theorem C6_limiter_new_ok_iff_witness : (Limiter.new (-1) 50 5).isOk = true :=
  (C6_limiter_new_ok_iff (-1) 50 5).mpr (by norm_num)

/-- C7: `AudioNormalizer::new` succeeds iff both parameters are strictly
negative and within their maxima (`target_loudness ≤ -10` LUFS,
`peak_ceiling ≤ -0.1` dBFS); on failure the error message names the
offending parameter (every "Target loudness …" message begins with the
parameter name, likewise "Peak ceiling …"). -/
theorem C7_normalizer_new_spec (tl pc : ℚ) :
    ((AudioNormalizer.new tl pc).isOk = true ↔
      (tl < 0 ∧ pc < 0 ∧ tl ≤ -10 ∧ pc ≤ -1/10)) ∧
    (∀ m, AudioNormalizer.new tl pc = .error m →
      ((m = "Target loudness must be negative" ∨
          m = "Target loudness exceeds maximum allowed value") ∧
        (0 ≤ tl ∨ -10 < tl)) ∨
      ((m = "Peak ceiling must be negative" ∨
          m = "Peak ceiling exceeds maximum allowed value") ∧
        (0 ≤ pc ∨ -1/10 < pc))) := by
  rw [AudioNormalizer.new, MAX_TARGET_LOUDNESS, MAX_PEAK_CEILING]
  split_ifs with h1 h2 h3 h4
  · refine ⟨iff_of_false (Except_isOk_error _)
      (by rintro ⟨a, -, -, -⟩; linarith), ?_⟩
    intro m hm
    injection hm with hmsg
    exact Or.inl ⟨Or.inl hmsg.symm, Or.inl h1⟩
  · refine ⟨iff_of_false (Except_isOk_error _)
      (by rintro ⟨-, b, -, -⟩; linarith), ?_⟩
    intro m hm
    injection hm with hmsg
    exact Or.inr ⟨Or.inl hmsg.symm, Or.inl h2⟩
  · refine ⟨iff_of_false (Except_isOk_error _)
      (by rintro ⟨-, -, c, -⟩; linarith), ?_⟩
    intro m hm
    injection hm with hmsg
    exact Or.inl ⟨Or.inr hmsg.symm, Or.inr h3⟩
  · refine ⟨iff_of_false (Except_isOk_error _)
      (by rintro ⟨-, -, -, d⟩; linarith), ?_⟩
    intro m hm
    injection hm with hmsg
    exact Or.inr ⟨Or.inr hmsg.symm, Or.inr h4⟩
  · refine ⟨iff_of_true (Except_isOk_ok _)
      ⟨by linarith, by linarith, by linarith, by linarith⟩, ?_⟩
    intro m hm
    simp at hm

theorem C7_normalizer_new_spec_witness :
    (AudioNormalizer.new (-14) (-1)).isOk = true :=
  (C7_normalizer_new_spec (-14) (-1)).1.mpr (by norm_num)

/-- C8, counterexample to the claim as stated: on a buffer containing NaN
next to another sample, the comparison `a.partial_cmp(b).unwrap()` inside
`max_peak` receives `None` and panics — the comparison used is NOT a
total-order comparison robust to NaN. -/
theorem C8_counterexample_nan_panic :
    max_peakF [F.num 0, F.nan] =
      .error "called Option::unwrap() on a None value" := rfl

/-- C8 (amended): on every NaN-free buffer `max_peak` returns without
failing (first conjunct, on the float model), its value is nonnegative, and
the empty buffer yields `0`; robustness to NaN inputs does NOT hold (see
the counterexample). -/
theorem C8_max_peak_total_nonneg (samples : List ℚ) :
    max_peakF (samples.map F.num) = .ok (F.num (max_peak samples)) ∧
    0 ≤ max_peak samples ∧ max_peak ([] : List ℚ) = 0 :=
  ⟨max_peakF_num samples, max_peak_nonneg samples, rfl⟩

/-- C9: in every execution of `process_and_upload_sound`, a `delete` of a
sound id can appear in the issued-call trace only strictly after a `create`
of the same id that completed successfully: replacement is upload-then-
delete, and a failed upload short-circuits (via `?`) before any delete. -/
theorem C9_upload_before_delete (getOk : Bool)
    (sounds : List (String × String)) (sound_name : String)
    (createOk deleteOk : Bool) (i : Nat) (id : String) (b : Bool)
    (h : (process_and_upload_sound getOk sounds sound_name createOk
        deleteOk)[i]? = some (.delete id, b)) :
    (DiscordCall.create id, true) ∈
      (process_and_upload_sound getOk sounds sound_name createOk
        deleteOk).take i := by
  rcases getOk with - | -
  · rw [process_and_upload_sound] at h
    simp only [if_neg (by simp : ¬ (false = true))] at h
    rcases i with - | i <;> simp at h
  · rw [process_and_upload_sound] at h ⊢
    simp only [if_pos rfl] at h ⊢
    rcases hfind : sounds.find? (fun s => s.1 == sound_name) with - | s <;>
      rw [hfind] at h ⊢
    · rcases i with - | - | i <;> simp at h
    · rcases createOk with - | -
      · simp only [if_neg (by simp : ¬ (false = true))] at h
        rcases i with - | - | i <;> simp at h
      · simp only [if_pos rfl] at h ⊢
        rcases i with - | - | - | i <;> simp at h
        obtain ⟨hid, -⟩ := h
        simp [hid]

theorem C9_upload_before_delete_witness :
    (DiscordCall.create "x", true) ∈
      (process_and_upload_sound true [("n", "x")] "n" true true).take 2 :=
  C9_upload_before_delete true [("n", "x")] "n" true true 2 "x" true rfl

/-- C10: NaN passes construction-time validation: every rejecting comparison
(`>= 0.0`, `> maximum`, `<= 0.0`) is false when the tested value is NaN, so
`Limiter::new(NaN, 50, 5)` and `AudioNormalizer::new` with a NaN
`target_loudness` or `peak_ceiling` succeed and store the NaN in the
constructed config. -/
theorem C10_nan_passes_validation :
    FLimiter.new F.nan (F.num 50) 5 = .ok ⟨F.nan, F.num 50, 5⟩ ∧
    FNormalizer.new F.nan (F.num (-1)) = .ok ⟨F.nan, F.num (-1)⟩ ∧
    FNormalizer.new (F.num (-14)) F.nan = .ok ⟨F.num (-14), F.nan⟩ := by
  refine ⟨rfl, ?_, ?_⟩ <;> norm_num [FNormalizer.new, F.ge, F.gt]

end EarPeace
